import Mathlib

/-!
Verification of the WESAD prior/weight extraction pipeline
(src/WatchStress/Assets.xcassets/wesad.py), shallowly embedded over the
rationals.  Floating-point arithmetic is modelled by exact rational
arithmetic.  The two irrational primitives of the source are handled as
follows:

* square roots (`np.std`, `np.linalg.norm`): either the comparison is
  rewritten into an equivalent rational comparison of squares
  (`x > m + s/2  <->  m < x  and  4*(x-m)^2 > variance`, for `s = sqrt variance`;
  `norm v < tol  <->  sumSq v < tol^2` for `tol > 0`), or, where a square
  root is *returned* (`robust_mean_std`, the SDNN value), the embedding
  takes an explicit parameter `sq : Q -> Q` standing for the
  floating-point square-root routine, applied to the exact radicand;
* `np.exp` inside the logistic sigmoid: the embedding takes a parameter
  `sigexp : Q -> Q` standing for the floating-point exponential; all
  theorems about the fitter hold for every such function;
* the FFT bandpass filter (`bandpass_fft`): its empty-input early
  return is embedded literally, while the FFT branch (mean-centering,
  `rfft`, mask, `irfft`) involves transcendental Fourier coefficients and
  is abstracted as a function parameter `bpc : List Q -> List Q`;
  theorems about the surrounding pipeline hold for every such function
  (where needed they assume only its documented length preservation,
  `irfft(..., n=len(x))` having exactly `len(x)` samples).

`np.linalg.solve` (raising `LinAlgError` on a singular matrix) is embedded
as exact Gaussian elimination over the rationals returning `Option`.
-/

/-- Arithmetic mean of a list of rationals, `np.mean` (0 on the empty list,
which the source never queries). -/
def meanQ (l : List ℚ) : ℚ := l.sum / l.length

/-- Population variance (`np.std(x)` squared, `ddof=0`). -/
def popVar (l : List ℚ) : ℚ := (l.map (fun v => (v - meanQ l) ^ 2)).sum / l.length

/-- Sample variance (`np.std(x, ddof=1)` squared, the `n-1` divisor). -/
def sampleVar (l : List ℚ) : ℚ :=
  (l.map (fun v => (v - meanQ l) ^ 2)).sum / ((l.length - 1 : ℕ) : ℚ)

/-- Sum of squares of a vector; `np.linalg.norm v < t` is encoded as
`sumSq v < t^2` (equivalent for `t > 0`). -/
def sumSq (l : List ℚ) : ℚ := (l.map (fun v => v ^ 2)).sum

/-- Interior strict-left / weak-right local maxima of `detect_peaks_simple`:
indices `i+1` with `x[i+1] > x[i]` and `x[i+1] >= x[i+2]`
(`mid > x[:-2]  &  mid >= x[2:]`, then `+ 1`). -/
def localMaxCands (x : List ℚ) : List ℕ :=
  ((List.range (x.length - 2)).filter (fun i =>
    decide (x.getD i 0 < x.getD (i + 1) 0 ∧ x.getD (i + 2) 0 ≤ x.getD (i + 1) 0))).map
    (· + 1)

/-- Candidates surviving the amplitude threshold
`x[p] > mean(x) + 0.5*std(x)`, encoded rationally as
`mean < x[p]  and  popVar < 4*(x[p]-mean)^2` (see the header note on square
roots). -/
def ampCands (x : List ℚ) : List ℕ :=
  (localMaxCands x).filter (fun p =>
    decide (meanQ x < x.getD p 0 ∧ popVar x < 4 * (x.getD p 0 - meanQ x) ^ 2))

/-- Greedy refractory scan of `detect_peaks_simple`: keep a candidate `p`
when `p - last >= min_dist`, updating `last`; `last` starts at
`-min_dist`. -/
def greedyKeep (md : ℕ) : List ℕ → ℤ → List ℕ
  | [], _ => []
  | p :: ps, last =>
    if (md : ℤ) ≤ (p : ℤ) - last then p :: greedyKeep md ps (p : ℤ)
    else greedyKeep md ps last

/-- Embedding of `detect_peaks_simple(x, fs_hz, max_bpm)`: local maxima,
amplitude threshold, then the greedy minimum-distance scan with
`min_dist = int(fs_hz * 60.0 / max_bpm)` (truncation, i.e. the floor for
the positive rates the program uses). -/
def detect_peaks_simple (x : List ℚ) (fs_hz max_bpm : ℚ) : List ℕ :=
  if x.length < 3 then []
  else if localMaxCands x = [] then []
  else if ampCands x = [] then []
  else
    greedyKeep (⌊fs_hz * 60 / max_bpm⌋).toNat (ampCands x)
      (-((⌊fs_hz * 60 / max_bpm⌋).toNat : ℤ))

/-- List lookup at a (possibly negative) integer index, 0 outside the
range; used to express zero-padded convolution. -/
def getQA (r : List ℚ) (z : ℤ) : ℚ :=
  if 0 ≤ z ∧ z < (r.length : ℤ) then r.getD z.toNat 0 else 0

/-- Embedding of `np.convolve(r, np.ones(win)/win, mode="same")` for
nonempty `r`: the full zero-padded convolution sliced to length
`max(len(r), win)` starting at offset `(min(len(r), win) - 1)/2`
(`np.convolve` swaps its arguments so the shorter one is the kernel, and
same-mode output has the length of the longer one).  For `len(r) >= win`
this is the familiar same-length centered average with offset
`(win-1)/2`. -/
def convSameAvg (win : ℕ) (r : List ℚ) : List ℚ :=
  (List.range (max r.length win)).map (fun i =>
    ((List.range win).map (fun t =>
      getQA r ((i : ℤ) + (((min r.length win - 1) / 2 : ℕ) : ℤ) - (t : ℤ)))).sum / (win : ℚ))

/-- Centered *same-length* moving average - the smoothing step in the
words of the C5 claim ("centered same-length output"); coincides with
`convSameAvg` when the signal is at least as long as the window. -/
def movingAvgSameLen (win : ℕ) (r : List ℚ) : List ℚ :=
  (List.range r.length).map (fun i =>
    ((List.range win).map (fun t =>
      getQA r ((i : ℤ) + (((win - 1) / 2 : ℕ) : ℤ) - (t : ℤ)))).sum / (win : ℚ))

/-- Embedding of `bandpass_fft(x, fs, f_lo, f_hi)` (lines 19-28): the
`len(x) == 0` early return is literal; the FFT branch (mean-centering,
`rfft`, frequency mask, `irfft`) is the abstract parameter `bpc` (see the
header). -/
def bandpass_fft (bpc : List ℚ → List ℚ) (x : List ℚ) : List ℚ :=
  if x.length = 0 then x else bpc x

/-- Embedding of `ecg_peaks_from_signal(ecg, fs_hz)`.  Gate: fewer than
`int(fs_hz * 5)` samples returns no peaks (`some []`); past the gate the
signal is rectified and smoothed with window
`win = max(3, int(0.05 * fs_hz))` - since `win > 1` always holds, via
`np.convolve(rect, ones(win)/win, "same")`, which *raises* `ValueError`
when `rect` is empty (reachable past the gate whenever
`int(5*fs_hz) = 0`); the raise is modelled as `none`.  Detection uses
`max_bpm = 200`. -/
def ecg_peaks_from_signal (bpc : List ℚ → List ℚ) (ecg : List ℚ) (fs_hz : ℚ) :
    Option (List ℕ) :=
  if (ecg.length : ℤ) < ⌊5 * fs_hz⌋ then some []
  else if 1 < max 3 (⌊(1 / 20 : ℚ) * fs_hz⌋.toNat) then
    if ((bandpass_fft bpc ecg).map (fun v => |v|)).length = 0 then none
    else some (detect_peaks_simple
      (convSameAvg (max 3 (⌊(1 / 20 : ℚ) * fs_hz⌋.toNat))
        ((bandpass_fft bpc ecg).map (fun v => |v|))) fs_hz 200)
  else some (detect_peaks_simple ((bandpass_fft bpc ecg).map (fun v => |v|)) fs_hz 200)

/-- Definition following the words of the C5 claim (for comparison with
the source embedding `ecg_peaks_from_signal`): no peaks (and no error)
for signals with fewer than `5*fs` samples, otherwise a same-length
smoothing of window `max(3, round(0.05*fs))` and detection at 200 bpm. -/
def ecgPeaksClaimC5 (bpc : List ℚ → List ℚ) (ecg : List ℚ) (fs_hz : ℚ) : List ℕ :=
  if (ecg.length : ℚ) < 5 * fs_hz then []
  else detect_peaks_simple
    (movingAvgSameLen (max 3 (round ((1 / 20 : ℚ) * fs_hz)).toNat)
      ((bandpass_fft bpc ecg).map (fun v => |v|))) fs_hz 200

/-- Embedding of `ibi_from_peaks(peaks, fs_hz)`: `(ibi_times, ibi_values)`
with `peak_times = peaks / fs`, `ibi_values = np.diff(peak_times)`,
`ibi_times = peak_times[1:]`; empty for fewer than 2 peaks. -/
def ibi_from_peaks (peaks : List ℕ) (fs_hz : ℚ) : List ℚ × List ℚ :=
  if peaks.length < 2 then ([], [])
  else
    ((peaks.map (fun (p : ℕ) => (p : ℚ) / fs_hz)).tail,
      List.zipWith (fun a b => b - a) (peaks.map (fun (p : ℕ) => (p : ℚ) / fs_hz))
        (peaks.map (fun (p : ℕ) => (p : ℚ) / fs_hz)).tail)

/-- Insert into a sorted list (ascending). -/
def insertQ (a : ℚ) : List ℚ → List ℚ
  | [] => [a]
  | b :: t => if a ≤ b then a :: b :: t else b :: insertQ a t

/-- Insertion sort, ascending; models the sort inside `np.median`. -/
def sortQ : List ℚ → List ℚ
  | [] => []
  | a :: t => insertQ a (sortQ t)

/-- Embedding of `np.median`: middle element of the sorted list for odd
length, average of the two middle elements for even length. -/
def medianQ (l : List ℚ) : ℚ :=
  let s := sortQ l
  let n := s.length
  if n % 2 = 1 then s.getD (n / 2) 0
  else (s.getD (n / 2 - 1) 0 + s.getD (n / 2) 0) / 2

/-- Gate 1 of `hr_hrv_from_ibi_window`: IBI values whose timestamp lies in
`[t0, t1)` (`(ibi_times >= t0) & (ibi_times < t1)`). -/
def windowVals (ibi_times ibi_values : List ℚ) (t0 t1 : ℚ) : List ℚ :=
  ((ibi_times.zip ibi_values).filter (fun p => decide (t0 ≤ p.1 ∧ p.1 < t1))).map (·.2)

/-- Gate 2 of `hr_hrv_from_ibi_window`: keep intervals in
`[60/200, 60/40] = [3/10, 3/2]` seconds. -/
def bpmVals (l : List ℚ) : List ℚ :=
  l.filter (fun v => decide ((3 / 10 : ℚ) ≤ v ∧ v ≤ (3 / 2 : ℚ)))

/-- Gate 3 of `hr_hrv_from_ibi_window`: keep intervals strictly inside
`(0.85*median, 1.15*median)` (`(ibi > 0.85*med) & (ibi < 1.15*med)`). -/
def gate3Vals (l : List ℚ) : List ℚ :=
  let med := medianQ l
  l.filter (fun v => decide ((17 / 20 : ℚ) * med < v ∧ v < (23 / 20 : ℚ) * med))

/-- Embedding of `hr_hrv_from_ibi_window(ibi_times, ibi_values, t0, t1)`.
`sq` models the floating-point square root used by `np.std` for the SDNN
(the embedding hands it the exact sample variance of the intervals in
milliseconds).  Each gate requires at least 2 survivors, else `None`. -/
def hr_hrv_from_ibi_window (sq : ℚ → ℚ) (ibi_times ibi_values : List ℚ)
    (t0 t1 : ℚ) : Option (ℚ × ℚ) :=
  let i1 := windowVals ibi_times ibi_values t0 t1
  if i1.length < 2 then none
  else
    let i2 := bpmVals i1
    if i2.length < 2 then none
    else
      let i3 := gate3Vals i2
      if i3.length < 2 then none
      else
        some (60 / meanQ i3,
          if 1 < i3.length then sq (sampleVar (i3.map (· * 1000))) else 0)

/-- Embedding of `robust_mean_std(x)`.  Non-finite floats are modelled as
`none` entries (`x[np.isfinite(x)]` is `filterMap id`); `sq` models the
floating-point square root inside `np.std(x, ddof=1)`. -/
def robust_mean_std (sq : ℚ → ℚ) (x : List (Option ℚ)) : ℚ × ℚ :=
  let xf := x.filterMap id
  if xf.length = 0 then (0, 1)
  else
    let mu := meanQ xf
    let sd := if 1 < xf.length then sq (sampleVar xf) else 1
    (mu, if sd < 1 / 1000000 then 1 else sd)

/-- Embedding of `np.clip(z, -50.0, 50.0)`. -/
def clipQ (z : ℚ) : ℚ := max (-50) (min 50 z)

/-- Embedding of `sigmoid(z) = 1/(1 + exp(-clip(z, -50, 50)))`; `sigexp`
models the floating-point exponential (see header). -/
def sigmoidQ (sigexp : ℚ → ℚ) (z : ℚ) : ℚ := 1 / (1 + sigexp (-(clipQ z)))

/-- Dot product of two rational vectors. -/
def dotQ (a b : List ℚ) : ℚ := (List.zipWith (· * ·) a b).sum

/-- Matrix-vector product, rows as lists (`X @ w`). -/
def matVecQ (m : List (List ℚ)) (v : List ℚ) : List ℚ := m.map (fun r => dotQ r v)

/-- Prepend the entries of a row onto the heads of a list of columns
(helper for the structural transpose below). -/
def consCols : List ℚ → List (List ℚ) → List (List ℚ)
  | [], cs => cs
  | a :: as, [] => [a] :: consCols as []
  | a :: as, c :: cs => (a :: c) :: consCols as cs

/-- Structural matrix transpose (agrees with `np.transpose` on the
rectangular matrices the fitter builds). -/
def transposeQ : List (List ℚ) → List (List ℚ)
  | [] => []
  | r :: rs => consCols r (transposeQ rs)

/-- Transposed matrix-vector product (`X.T @ u`). -/
def matTVecQ (m : List (List ℚ)) (u : List ℚ) : List ℚ :=
  (transposeQ m).map (fun c => dotQ c u)

/-- Matrix product `A @ B`, rows as lists. -/
def matMulQ (a b : List (List ℚ)) : List (List ℚ) :=
  a.map (fun ra => (transposeQ b).map (fun cb => dotQ ra cb))

/-- Entrywise matrix sum. -/
def matAddQ (a b : List (List ℚ)) : List (List ℚ) :=
  List.zipWith (List.zipWith (· + ·)) a b

/-- Scaled identity matrix `l2 * np.eye(d)`. -/
def eyeQ (d : ℕ) (l2 : ℚ) : List (List ℚ) :=
  (List.range d).map (fun i => (List.range d).map (fun j => if i = j then l2 else 0))

/-- Pick the first row with a nonzero leading coefficient, returning it
together with the remaining rows. -/
def pivotSplit : List (List ℚ) → Option (List ℚ × List (List ℚ))
  | [] => none
  | r :: rs =>
    if r.headD 0 ≠ 0 then some (r, rs)
    else
      match pivotSplit rs with
      | none => none
      | some (p, rest) => some (p, r :: rest)

/-- Eliminate the leading column of `r` using pivot row `p` and drop it. -/
def elimRow (p r : List ℚ) : List ℚ :=
  (List.zipWith (fun ri pi => ri - r.headD 0 / p.headD 0 * pi) r p).tail

/-- Exact Gaussian elimination with back-substitution on augmented rows;
`none` when no pivot is available (singular system).  The fuel is the row
count. -/
def gaussAux : ℕ → List (List ℚ) → Option (List ℚ)
  | _, [] => some []
  | 0, _ :: _ => none
  | n + 1, rows =>
    match pivotSplit rows with
    | none => none
    | some (p, rest) =>
      match gaussAux n (rest.map (elimRow p)) with
      | none => none
      | some xs =>
        let t := p.tail
        some ((t.getLastD 0 - dotQ t.dropLast xs) / p.headD 0 :: xs)

/-- Embedding of `np.linalg.solve(A, b)`: `none` models the
`LinAlgError` raised on a singular matrix. -/
def linSolve (a : List (List ℚ)) (b : List ℚ) : Option (List ℚ) :=
  gaussAux a.length (List.zipWith (fun row bi => row ++ [bi]) a b)

/-- One Newton-Raphson step of `fit_logistic_newton` at state `(w, b)`:
returns `none` on a singular Hessian, otherwise
`(step_w, grad_b, (w - step_w, b - grad_b/(sum W + 1e-6)))`. -/
def newtonStep (sigexp : ℚ → ℚ) (x : List (List ℚ)) (y : List ℚ) (l2 : ℚ)
    (s : List ℚ × ℚ) : Option (List ℚ × ℚ × (List ℚ × ℚ)) :=
  let d := (x.headD []).length
  let z := (matVecQ x s.1).map (· + s.2)
  let p := z.map (sigmoidQ sigexp)
  let bigW := p.map (fun pi => pi * (1 - pi))
  let pmy := List.zipWith (· - ·) p y
  let grad_w := List.zipWith (· + ·) (matTVecQ x pmy) (s.1.map (l2 * ·))
  let grad_b := pmy.sum
  let xw := List.zipWith (fun wi row => row.map (wi * ·)) bigW x
  let h := matAddQ (matMulQ (transposeQ x) xw) (eyeQ d l2)
  match linSolve h grad_w with
  | none => none
  | some st =>
    some (st, grad_b,
      (List.zipWith (· - ·) s.1 st, s.2 - grad_b / (bigW.sum + 1 / 1000000)))

/-- The state reached by one loop iteration: the Newton update when the
Hessian is regular, the unchanged state otherwise. -/
def stepOnce (sigexp : ℚ → ℚ) (x : List (List ℚ)) (y : List ℚ) (l2 : ℚ)
    (s : List ℚ × ℚ) : List ℚ × ℚ :=
  match newtonStep sigexp x y l2 s with
  | none => s
  | some r => r.2.2

/-- The iteration loop of `fit_logistic_newton`: stop on fuel exhaustion,
on a singular Hessian (returning the pre-step state), or - after the
update - when the step norm and the bias gradient are below tolerance
(`norm(step_w) < tol` encoded as `sumSq step_w < tol^2`; see header). -/
def fitAux (sigexp : ℚ → ℚ) (x : List (List ℚ)) (y : List ℚ) (l2 tol : ℚ) :
    ℕ → List ℚ × ℚ → List ℚ × ℚ
  | 0, s => s
  | n + 1, s =>
    match newtonStep sigexp x y l2 s with
    | none => s
    | some r =>
      if sumSq r.1 < tol ^ 2 ∧ |r.2.1| < tol then r.2.2
      else fitAux sigexp x y l2 tol n r.2.2

/-- Embedding of `fit_logistic_newton(X, y, l2, max_iter, tol)`: the loop
started at `w = zeros(d)`, `b = 0`. -/
def fit_logistic_newton (sigexp : ℚ → ℚ) (x : List (List ℚ)) (y : List ℚ)
    (l2 : ℚ) (max_iter : ℕ) (tol : ℚ) : List ℚ × ℚ :=
  fitAux sigexp x y l2 tol max_iter (List.replicate (x.headD []).length 0, 0)

/-- Largest element of a list of naturals (0 for the empty list). -/
def maxVal (l : List ℕ) : ℕ := l.foldr max 0

/-- Largest occurrence count over the bins `0 .. maxVal l` - the maximum
of `np.bincount(l)`. -/
def maxCount (l : List ℕ) : ℕ :=
  ((List.range (maxVal l + 1)).map (fun v => l.count v)).foldr max 0

/-- First value from `v0` upward (within `fuel` tries) whose count equals
`mc`; models the first-maximum rule of `np.argmax`. -/
def firstMaxAux (cnt : ℕ → ℕ) (mc : ℕ) : ℕ → ℕ → ℕ
  | 0, v0 => v0
  | n + 1, v0 => if cnt v0 = mc then v0 else firstMaxAux cnt mc n (v0 + 1)

/-- Embedding of `np.bincount(lbl).argmax()`: the smallest label value
whose occurrence count is maximal. -/
def majorityLabel (l : List ℕ) : ℕ :=
  firstMaxAux (fun v => l.count v) (maxCount l) (maxVal l + 1) 0

/-- The window-keeping rule of the assembly loop:
`maj in (BASELINE, STRESS) = (1, 2)`; any other majority label skips the
window (`continue`), it is not an error. -/
def windowKept (l : List ℕ) : Bool :=
  decide (majorityLabel l = 1 ∨ majorityLabel l = 2)

/-- Column `j` of a row-major dataset (`X[:, j]`). -/
def colList (rows : List (List ℚ)) (j : ℕ) : List ℚ :=
  rows.map (fun r => r.getD j 0)

/-- Rows with label 0 (`X[y == 0]`, the baseline rows). -/
def baseRows (x : List (List ℚ)) (y : List ℕ) : List (List ℚ) :=
  (x.zip y).filterMap (fun p => if p.2 = 0 then some p.1 else none)

/-- Rows with label 1 (`X[y == 1]`, the stress rows). -/
def stressRows (x : List (List ℚ)) (y : List ℕ) : List (List ℚ) :=
  (x.zip y).filterMap (fun p => if p.2 = 1 then some p.1 else none)

/-- Per-feature priors `(mean, std)` from the baseline rows, one pair per
feature `j < 4`, via `robust_mean_std`. -/
def priorsOf (sq : ℚ → ℚ) (x : List (List ℚ)) (y : List ℕ) : List (ℚ × ℚ) :=
  (List.range 4).map (fun j =>
    robust_mean_std sq ((colList (baseRows x y) j).map some))

/-- Baseline-relative standardization `Xz[:, j] = (X[:, j] - mu)/(sd + 1e-6)`. -/
def standardizeQ (x : List (List ℚ)) (pr : List (ℚ × ℚ)) : List (List ℚ) :=
  x.map (fun row => (List.range 4).map (fun j =>
    (row.getD j 0 - (pr.getD j (0, 1)).1) / ((pr.getD j (0, 1)).2 + 1 / 1000000)))

/-- Effect-size weighting: per feature
`w[j] = (mean(X_stress[:, j]) - mu_base)/(sd_base + 1e-6)`, with the
stress mean falling back to `mu_base` when there are no stress rows;
bias 0. -/
def effectWeights (sq : ℚ → ℚ) (x : List (List ℚ)) (y : List ℕ) : List ℚ × ℚ :=
  let pr := priorsOf sq x y
  let xs := stressRows x y
  ((List.range 4).map (fun j =>
    let mb := (pr.getD j (0, 1)).1
    let sb := (pr.getD j (0, 1)).2
    let ms := if xs.length ≠ 0 then meanQ (colList xs j) else mb
    (ms - mb) / (sb + 1 / 1000000)), 0)

/-- The two weighting strategies of `main` (`--weight_mode`). -/
inductive WeightMode
  | effect_size
  | linear

/-- Embedding of the tail of `main` after dataset assembly: abort with
`SystemExit` (modelled as `Except.error`) when fewer than 50 rows were
accepted, otherwise compute priors and weights (the hand-rolled fitter is
used in linear mode; the optional sklearn path is an interchangeable
external solver outside the core). -/
def mainFit (sq sigexp : ℚ → ℚ) (x : List (List ℚ)) (y : List ℕ)
    (mode : WeightMode) : Except String (List (ℚ × ℚ) × List ℚ × ℚ) :=
  if x.length < 50 then
    Except.error ("Not enough samples extracted (" ++ toString x.length ++
      "). Check paths / zip contents.")
  else
    let pr := priorsOf sq x y
    match mode with
    | .effect_size =>
      let wb := effectWeights sq x y
      Except.ok (pr, wb.1, wb.2)
    | .linear =>
      let xz := standardizeQ x pr
      let wb := fit_logistic_newton sigexp xz (y.map (fun (l : ℕ) => (l : ℚ))) 1 50 (1 / 1000000)
      Except.ok (pr, wb.1, wb.2)

lemma getD_tail_eq {α : Type} (l : List α) (i : ℕ) (d : α) :
    l.tail.getD i d = l.getD (i + 1) d := by
  cases l with
  | nil => rfl
  | cons a t => simp [List.getD_cons_succ]

lemma getD_map_eq {α β : Type} (f : α → β) (l : List α) (i : ℕ) (d1 : α) (d2 : β)
    (h : i < l.length) : (l.map f).getD i d2 = f (l.getD i d1) := by
  induction l generalizing i with
  | nil => simp at h
  | cons a t ih =>
    cases i with
    | zero => simp
    | succ j =>
      simp only [List.map_cons, List.getD_cons_succ]
      exact ih j (by simpa using h)

lemma getD_zipWith_eq {α β γ : Type} (f : α → β → γ) (l1 : List α) (l2 : List β)
    (i : ℕ) (d1 : α) (d2 : β) (d3 : γ) (h1 : i < l1.length) (h2 : i < l2.length) :
    (List.zipWith f l1 l2).getD i d3 = f (l1.getD i d1) (l2.getD i d2) := by
  induction l1 generalizing l2 i with
  | nil => simp at h1
  | cons a t ih =>
    cases l2 with
    | nil => simp at h2
    | cons b u =>
      cases i with
      | zero => simp
      | succ j =>
        simp only [List.zipWith_cons_cons, List.getD_cons_succ]
        exact ih u j (by simpa using h1) (by simpa using h2)

/-- C6: `InterBeatIntervalComputer` (`ibi_from_peaks`) emits one entry
fewer than the number of peaks, each value being the time difference of a
consecutive peak pair and each timestamp the later peak's time
(`index/fs`); with fewer than 2 peaks both series are empty; and on peaks
`[0,100,200,300]` at `fs = 100` it yields values `[1,1,1]` at timestamps
`[1,2,3]`. -/
theorem ibi_from_peaks_spec (peaks : List ℕ) (fs : ℚ) :
    (peaks.length < 2 → ibi_from_peaks peaks fs = ([], [])) ∧
    (2 ≤ peaks.length →
      (ibi_from_peaks peaks fs).1.length = peaks.length - 1 ∧
      (ibi_from_peaks peaks fs).2.length = peaks.length - 1 ∧
      ∀ i, i + 1 < peaks.length →
        (ibi_from_peaks peaks fs).2.getD i 0 =
          (peaks.getD (i + 1) 0 : ℚ) / fs - (peaks.getD i 0 : ℚ) / fs ∧
        (ibi_from_peaks peaks fs).1.getD i 0 = (peaks.getD (i + 1) 0 : ℚ) / fs) ∧
    ibi_from_peaks [0, 100, 200, 300] 100 = ([1, 2, 3], [1, 1, 1]) := by
  refine ⟨fun h => by simp only [ibi_from_peaks, if_pos h], fun h => ?_,
    by norm_num [ibi_from_peaks, List.zipWith_cons_cons]⟩
  have hnl : ¬ peaks.length < 2 := by omega
  have hfst : (ibi_from_peaks peaks fs).1 =
      (peaks.map (fun (p : ℕ) => (p : ℚ) / fs)).tail := by
    simp only [ibi_from_peaks, if_neg hnl]
  have hsnd : (ibi_from_peaks peaks fs).2 =
      List.zipWith (fun a b => b - a) (peaks.map (fun (p : ℕ) => (p : ℚ) / fs))
        (peaks.map (fun (p : ℕ) => (p : ℚ) / fs)).tail := by
    simp only [ibi_from_peaks, if_neg hnl]
  refine ⟨by rw [hfst, List.length_tail, List.length_map],
    by rw [hsnd, List.length_zipWith, List.length_tail, List.length_map]; omega,
    fun i hi => ?_⟩
  have hlm : i < (peaks.map (fun (p : ℕ) => (p : ℚ) / fs)).length := by
    rw [List.length_map]; omega
  have hlt : i < (peaks.map (fun (p : ℕ) => (p : ℚ) / fs)).tail.length := by
    rw [List.length_tail, List.length_map]; omega
  constructor
  · rw [hsnd, getD_zipWith_eq _ _ _ i 0 0 0 hlm hlt, getD_tail_eq,
      getD_map_eq _ _ _ 0 0 (by omega), getD_map_eq _ _ _ 0 0 (by omega)]
  · rw [hfst, getD_tail_eq, getD_map_eq _ _ _ 0 0 (by omega)]

theorem ibi_from_peaks_spec_witness :
    2 ≤ ([0, 100, 200, 300] : List ℕ).length ∧
    (ibi_from_peaks [0, 100, 200, 300] 100).2.length = 3 ∧
    (ibi_from_peaks [0, 100, 200, 300] 100).2.getD 0 0 =
      (([0, 100, 200, 300] : List ℕ).getD 1 0 : ℚ) / 100 -
        (([0, 100, 200, 300] : List ℕ).getD 0 0 : ℚ) / 100 := by
  have h := (ibi_from_peaks_spec [0, 100, 200, 300] (100 : ℚ)).2.1 (by decide)
  exact ⟨by decide, h.2.1, (h.2.2 0 (by decide)).1⟩

/-- C7: `robust_mean_std` drops non-finite entries (the `none`s); on an
empty remainder it returns `(0, 1)`; on a single sample it returns the
mean with std 1; otherwise the arithmetic mean and the sample standard
deviation (`n-1` divisor, modelled as `sq` of the exact sample variance),
with the std replaced by 1 whenever it is below `1e-6`. -/
theorem robust_mean_std_spec (sq : ℚ → ℚ) (x : List (Option ℚ)) :
    (x.filterMap id = [] → robust_mean_std sq x = (0, 1)) ∧
    ((x.filterMap id).length = 1 →
      robust_mean_std sq x = (meanQ (x.filterMap id), 1)) ∧
    (2 ≤ (x.filterMap id).length →
      robust_mean_std sq x =
        (meanQ (x.filterMap id),
          if sq (sampleVar (x.filterMap id)) < 1 / 1000000 then 1
          else sq (sampleVar (x.filterMap id)))) := by
  refine ⟨fun h => by simp [robust_mean_std, h], fun h => ?_, fun h => ?_⟩
  · have h0 : ¬ (x.filterMap id).length = 0 := by omega
    have h1 : ¬ 1 < (x.filterMap id).length := by omega
    simp only [robust_mean_std, h0, if_false, h1, if_true]
    norm_num
  · have h0 : ¬ (x.filterMap id).length = 0 := by omega
    have h1 : 1 < (x.filterMap id).length := by omega
    simp [robust_mean_std, h0, h1]

theorem robust_mean_std_spec_witness :
    2 ≤ (([some 1, none, some 1] : List (Option ℚ)).filterMap id).length ∧
    robust_mean_std id [some 1, none, some 1] = (1, 1) := by
  refine ⟨by decide, ?_⟩
  have h := (robust_mean_std_spec id [some 1, none, some 1]).2.2 (by decide)
  rw [h]; norm_num [meanQ, sampleVar, List.filterMap]

/-- C1 (amended): in the third gate of `hr_hrv_from_ibi_window` exactly
the surviving intervals lying strictly inside `(0.85*med, 1.15*med)` are
retained - an interval exactly equal to `0.85*med` or `1.15*med` is
rejected - and, given at least 2 survivors of gate 2, the estimator
returns `none` iff fewer than 2 intervals remain after the third gate,
else the pair `(60/mean, sq(sampleVar*1000^2-scaled))`. -/
theorem hr_hrv_gate3_spec (sq : ℚ → ℚ) (ts vs : List ℚ) (t0 t1 : ℚ)
    (h2 : 2 ≤ (bpmVals (windowVals ts vs t0 t1)).length) :
    (∀ v, v ∈ gate3Vals (bpmVals (windowVals ts vs t0 t1)) ↔
      v ∈ bpmVals (windowVals ts vs t0 t1) ∧
      (17 / 20 : ℚ) * medianQ (bpmVals (windowVals ts vs t0 t1)) < v ∧
      v < (23 / 20 : ℚ) * medianQ (bpmVals (windowVals ts vs t0 t1))) ∧
    (hr_hrv_from_ibi_window sq ts vs t0 t1 = none ↔
      (gate3Vals (bpmVals (windowVals ts vs t0 t1))).length < 2) ∧
    (2 ≤ (gate3Vals (bpmVals (windowVals ts vs t0 t1))).length →
      hr_hrv_from_ibi_window sq ts vs t0 t1 =
        some (60 / meanQ (gate3Vals (bpmVals (windowVals ts vs t0 t1))),
          sq (sampleVar ((gate3Vals (bpmVals (windowVals ts vs t0 t1))).map
            (· * 1000))))) := by
  have hle : (bpmVals (windowVals ts vs t0 t1)).length ≤
      (windowVals ts vs t0 t1).length := List.length_filter_le _ _
  have h1 : ¬ (windowVals ts vs t0 t1).length < 2 := by omega
  refine ⟨fun v => ?_, ?_, fun h3 => ?_⟩
  · simp only [gate3Vals, List.mem_filter, decide_eq_true_iff]
  · simp only [hr_hrv_from_ibi_window, if_neg h1, if_neg (not_lt.mpr h2)]
    by_cases h3 : (gate3Vals (bpmVals (windowVals ts vs t0 t1))).length < 2
    · simp [if_pos h3, h3]
    · simp [if_neg h3, h3]
  · have h3' : ¬ (gate3Vals (bpmVals (windowVals ts vs t0 t1))).length < 2 := by omega
    have h1lt : 1 < (gate3Vals (bpmVals (windowVals ts vs t0 t1))).length := by omega
    simp only [hr_hrv_from_ibi_window, if_neg h1, if_neg (not_lt.mpr h2), if_neg h3',
      if_pos h1lt]

/-- C1 counterexample to the claim as stated: with IBI values
`[0.85, 1, 1.15]` all inside the window and the bpm band, the median is 1
and at least 2 of the intervals lie within the *closed* plus-minus 15
percent band around it (all three do), yet the code returns `none`: the
two boundary intervals `0.85 = 0.85*med` and `1.15 = 1.15*med` are
rejected by the strict inequalities, leaving a single survivor. -/
theorem hr_hrv_boundary_cex :
    hr_hrv_from_ibi_window id [1, 2, 3] [17 / 20, 1, 23 / 20] 0 10 = none ∧
    medianQ (bpmVals (windowVals [1, 2, 3] [17 / 20, 1, 23 / 20] 0 10)) = 1 ∧
    2 ≤ ((bpmVals (windowVals [1, 2, 3] [17 / 20, 1, 23 / 20] 0 10)).filter
      (fun v => decide ((17 / 20 : ℚ) * 1 ≤ v ∧ v ≤ (23 / 20 : ℚ) * 1))).length := by
  have hw : windowVals [1, 2, 3] [17 / 20, 1, 23 / 20] 0 10 = [17 / 20, 1, 23 / 20] := by
    norm_num [windowVals, List.filter]
  have hb : bpmVals [17 / 20, 1, 23 / 20] = [17 / 20, 1, 23 / 20] := by
    norm_num [bpmVals, List.filter]
  have hm : medianQ [(17 / 20 : ℚ), 1, 23 / 20] = 1 := by
    norm_num [medianQ, sortQ, insertQ]
  have hg : gate3Vals [(17 / 20 : ℚ), 1, 23 / 20] = [1] := by
    norm_num [gate3Vals, hm, List.filter]
  refine ⟨?_, by rw [hw, hb]; exact hm, by rw [hw, hb]; norm_num [List.filter]⟩
  simp only [hr_hrv_from_ibi_window, hw, hb, hg]
  norm_num

theorem hr_hrv_gate3_spec_witness :
    2 ≤ (bpmVals (windowVals [1, 2, 3] [1 / 2, 1, 11 / 10] 0 10)).length ∧
    2 ≤ (gate3Vals (bpmVals (windowVals [1, 2, 3] [1 / 2, 1, 11 / 10] 0 10))).length ∧
    hr_hrv_from_ibi_window id [1, 2, 3] [1 / 2, 1, 11 / 10] 0 10 =
      some (60 / meanQ (gate3Vals (bpmVals (windowVals [1, 2, 3] [1 / 2, 1, 11 / 10] 0 10))),
        id (sampleVar ((gate3Vals (bpmVals (windowVals [1, 2, 3] [1 / 2, 1, 11 / 10] 0 10))).map
          (· * 1000)))) := by
  have hw : windowVals [1, 2, 3] [1 / 2, 1, 11 / 10] 0 10 = [1 / 2, 1, 11 / 10] := by
    norm_num [windowVals, List.filter]
  have hb : bpmVals [(1 / 2 : ℚ), 1, 11 / 10] = [1 / 2, 1, 11 / 10] := by
    norm_num [bpmVals, List.filter]
  have hm : medianQ [(1 / 2 : ℚ), 1, 11 / 10] = 1 := by
    norm_num [medianQ, sortQ, insertQ]
  have hg : gate3Vals [(1 / 2 : ℚ), 1, 11 / 10] = [1, 11 / 10] := by
    norm_num [gate3Vals, hm, List.filter]
  have hlen2 : 2 ≤ (bpmVals (windowVals [1, 2, 3] [1 / 2, 1, 11 / 10] 0 10)).length := by
    rw [hw, hb]; norm_num
  exact ⟨hlen2, by rw [hw, hb, hg]; norm_num,
    (hr_hrv_gate3_spec id [1, 2, 3] [1 / 2, 1, 11 / 10] 0 10 hlen2).2.2
      (by rw [hw, hb, hg]; norm_num)⟩

lemma le_foldr_max (l : List ℕ) : ∀ a ∈ l, a ≤ l.foldr max 0 := by
  induction l with
  | nil => intro a ha; simp at ha
  | cons h t ih =>
    intro a ha
    rcases List.mem_cons.mp ha with rfl | hm
    · exact le_max_left _ _
    · exact le_trans (ih a hm) (le_max_right _ _)

lemma foldr_max_mem (l : List ℕ) : l.foldr max 0 ∈ l ∨ l.foldr max 0 = 0 := by
  induction l with
  | nil => exact Or.inr rfl
  | cons h t ih =>
    simp only [List.foldr_cons]
    rcases ih with hm | h0
    · rcases max_choice h (t.foldr max 0) with he | he
      · rw [he]; exact Or.inl (List.mem_cons_self _ _)
      · rw [he]; exact Or.inl (List.mem_cons_of_mem _ hm)
    · rw [h0, max_eq_left (Nat.zero_le h)]
      exact Or.inl (List.mem_cons_self _ _)

lemma count_le_maxCount (l : List ℕ) (v : ℕ) : l.count v ≤ maxCount l := by
  by_cases hv : v ≤ maxVal l
  · exact le_foldr_max _ _ (List.mem_map.mpr ⟨v, List.mem_range.mpr (by omega), rfl⟩)
  · have : v ∉ l := fun hm => hv (le_foldr_max l v hm)
    rw [List.count_eq_zero.mpr this]
    exact Nat.zero_le _

lemma maxCount_attained (l : List ℕ) (h : l ≠ []) :
    ∃ v, v ≤ maxVal l ∧ l.count v = maxCount l := by
  rcases foldr_max_mem ((List.range (maxVal l + 1)).map (fun v => l.count v)) with hm | h0
  · rcases List.mem_map.mp hm with ⟨v, hvr, hve⟩
    have hvm := List.mem_range.mp hvr
    refine ⟨v, by omega, ?_⟩
    rw [maxCount]
    exact hve
  · exfalso
    obtain ⟨a, t, rfl⟩ := List.exists_cons_of_ne_nil h
    have ha : (a :: t).count a ≤ maxCount (a :: t) := count_le_maxCount _ _
    have hpos : 0 < (a :: t).count a := List.count_pos_iff.mpr (List.mem_cons_self _ _)
    rw [maxCount] at ha
    omega

lemma firstMaxAux_spec (cnt : ℕ → ℕ) (mc : ℕ) (n v0 : ℕ)
    (h : ∃ u, v0 ≤ u ∧ u < v0 + n ∧ cnt u = mc) :
    cnt (firstMaxAux cnt mc n v0) = mc ∧ v0 ≤ firstMaxAux cnt mc n v0 ∧
    ∀ u, v0 ≤ u → u < firstMaxAux cnt mc n v0 → cnt u ≠ mc := by
  induction n generalizing v0 with
  | zero => obtain ⟨u, h1, h2, _⟩ := h; omega
  | succ n ih =>
    by_cases hc : cnt v0 = mc
    · refine ⟨by simp [firstMaxAux, hc], by simp [firstMaxAux, hc], ?_⟩
      intro u hu1 hu2
      simp [firstMaxAux, hc] at hu2
      omega
    · have hstep : firstMaxAux cnt mc (n + 1) v0 = firstMaxAux cnt mc n (v0 + 1) := by
        simp [firstMaxAux, hc]
      obtain ⟨u, h1, h2, h3⟩ := h
      have hu1 : v0 + 1 ≤ u := by
        rcases Nat.eq_or_lt_of_le h1 with rfl | hlt
        · exact absurd h3 hc
        · omega
      obtain ⟨g1, g2, g3⟩ := ih (v0 + 1) ⟨u, hu1, by omega, h3⟩
      rw [hstep]
      refine ⟨g1, by omega, fun w hw1 hw2 => ?_⟩
      rcases Nat.eq_or_lt_of_le hw1 with rfl | hlt
      · exact hc
      · exact g3 w (by omega) hw2

/-- C3: on a nonempty label slice the majority label
(`np.bincount(lbl).argmax()`) has maximal occurrence count, ties are
resolved in favor of the lowest label value, and the window is kept for
feature extraction exactly when the majority label is baseline (1) or
stress (2); any other majority label skips the window without error. -/
theorem majority_label_spec (l : List ℕ) (h : l ≠ []) :
    (∀ v, l.count v ≤ l.count (majorityLabel l)) ∧
    (∀ v, l.count v = l.count (majorityLabel l) → majorityLabel l ≤ v) ∧
    (windowKept l = true ↔ (majorityLabel l = 1 ∨ majorityLabel l = 2)) := by
  obtain ⟨v, hv, hc⟩ := maxCount_attained l h
  have hex : ∃ u, 0 ≤ u ∧ u < 0 + (maxVal l + 1) ∧ l.count u = maxCount l :=
    ⟨v, Nat.zero_le _, by omega, hc⟩
  obtain ⟨h1, _, h3⟩ := firstMaxAux_spec (fun u => l.count u) (maxCount l)
    (maxVal l + 1) 0 hex
  have hdef : majorityLabel l = firstMaxAux (fun u => l.count u) (maxCount l)
      (maxVal l + 1) 0 := rfl
  have hmaj : l.count (majorityLabel l) = maxCount l := by rw [hdef]; exact h1
  refine ⟨fun w => hmaj ▸ count_le_maxCount l w, fun w hw => ?_, ?_⟩
  · by_contra hlt
    refine h3 w (Nat.zero_le _) ?_ (by rw [hw, hmaj])
    rw [← hdef]
    omega
  · simp [windowKept]

theorem majority_label_spec_witness :
    ([2, 1, 1, 2, 3] : List ℕ) ≠ [] ∧
    ([2, 1, 1, 2, 3] : List ℕ).count 2 =
      ([2, 1, 1, 2, 3] : List ℕ).count (majorityLabel [2, 1, 1, 2, 3]) ∧
    majorityLabel [2, 1, 1, 2, 3] ≤ 2 ∧
    ([2, 1, 1, 2, 3] : List ℕ).count 3 ≤
      ([2, 1, 1, 2, 3] : List ℕ).count (majorityLabel [2, 1, 1, 2, 3]) := by
  have h := majority_label_spec [2, 1, 1, 2, 3] (by decide)
  exact ⟨by decide, by decide, h.2.1 2 (by decide), h.1 3⟩

/-- C9: in effect-size mode, when the dataset has no stress-labeled rows
the stress mean of each feature silently falls back to the baseline prior
mean, so every weight is `(mu - mu)/(sd + 1e-6) = 0` and the bias is 0. -/
theorem effect_size_no_stress (sq : ℚ → ℚ) (x : List (List ℚ)) (y : List ℕ)
    (h : stressRows x y = []) :
    (effectWeights sq x y).1.length = 4 ∧
    (∀ w ∈ (effectWeights sq x y).1, w = 0) ∧
    (effectWeights sq x y).2 = 0 := by
  refine ⟨by simp [effectWeights], fun w hw => ?_, rfl⟩
  simp only [effectWeights, h, List.length_nil, ne_eq, not_true_eq_false, if_false,
    List.mem_map, reduceIte] at hw
  obtain ⟨j, _, rfl⟩ := hw
  simp

theorem effect_size_no_stress_witness :
    stressRows [[1, 2, 3, 4]] [0] = [] ∧
    (effectWeights id [[1, 2, 3, 4]] [0]).2 = 0 ∧
    ∀ w ∈ (effectWeights id [[1, 2, 3, 4]] [0]).1, w = 0 := by
  have h := effect_size_no_stress id [[1, 2, 3, 4]] [0] (by decide)
  exact ⟨by decide, h.2.2, h.2.1⟩

/-- C8: after dataset assembly the run aborts with a hard failure
(`SystemExit`, modelled as `Except.error`) when fewer than 50 rows were
accepted, before computing any priors, weights or output artifact; with
50 or more rows it proceeds and produces an artifact, in either weighting
mode. -/
theorem mainFit_gate (sq sigexp : ℚ → ℚ) (x : List (List ℚ)) (y : List ℕ)
    (mode : WeightMode) :
    (x.length < 50 → mainFit sq sigexp x y mode =
      Except.error ("Not enough samples extracted (" ++ toString x.length ++
        "). Check paths / zip contents.")) ∧
    (50 ≤ x.length → ∃ out, mainFit sq sigexp x y mode = Except.ok out) := by
  constructor
  · intro h
    simp only [mainFit, if_pos h]
  · intro h
    have h' : ¬ x.length < 50 := by omega
    cases mode with
    | effect_size =>
      refine ⟨(priorsOf sq x y, (effectWeights sq x y).1, (effectWeights sq x y).2), ?_⟩
      simp only [mainFit, if_neg h']
    | linear =>
      refine ⟨(priorsOf sq x y,
        (fit_logistic_newton sigexp (standardizeQ x (priorsOf sq x y))
          (y.map (fun (l : ℕ) => (l : ℚ))) 1 50 (1 / 1000000)).1,
        (fit_logistic_newton sigexp (standardizeQ x (priorsOf sq x y))
          (y.map (fun (l : ℕ) => (l : ℚ))) 1 50 (1 / 1000000)).2), ?_⟩
      simp only [mainFit, if_neg h']

theorem mainFit_gate_witness :
    ((List.replicate 49 ([] : List ℚ)).length < 50 ∧
      mainFit id id (List.replicate 49 []) (List.replicate 49 0) WeightMode.effect_size =
        Except.error ("Not enough samples extracted (" ++
          toString (List.replicate 49 ([] : List ℚ)).length ++
          "). Check paths / zip contents.")) ∧
    (50 ≤ (List.replicate 50 ([] : List ℚ)).length ∧
      ∃ out, mainFit id id (List.replicate 50 []) (List.replicate 50 0)
        WeightMode.effect_size = Except.ok out) := by
  refine ⟨⟨by decide, ?_⟩, ⟨by decide, ?_⟩⟩
  · exact (mainFit_gate id id (List.replicate 49 []) (List.replicate 49 0)
      WeightMode.effect_size).1 (by decide)
  · exact (mainFit_gate id id (List.replicate 50 []) (List.replicate 50 0)
      WeightMode.effect_size).2 (by decide)

lemma greedyKeep_sublist (md : ℕ) :
    ∀ (ps : List ℕ) (last : ℤ), (greedyKeep md ps last).Sublist ps := by
  intro ps
  induction ps with
  | nil => intro last; simp [greedyKeep]
  | cons p t ih =>
    intro last
    by_cases h : (md : ℤ) ≤ (p : ℤ) - last
    · simpa [greedyKeep, h] using (ih (p : ℤ)).cons₂ p
    · simpa [greedyKeep, h] using (ih last).cons p

lemma greedyKeep_mem_lower (md : ℕ) :
    ∀ (ps : List ℕ) (last : ℤ), ps.Pairwise (· < ·) →
      (∀ p ∈ ps, last < (p : ℤ)) →
      ∀ q ∈ greedyKeep md ps last, last + md ≤ (q : ℤ) := by
  intro ps
  induction ps with
  | nil => intro last _ _ q hq; simp [greedyKeep] at hq
  | cons p t ih =>
    intro last hsort hlt q hq
    have hps := List.pairwise_cons.mp hsort
    by_cases h : (md : ℤ) ≤ (p : ℤ) - last
    · simp only [greedyKeep, if_pos h] at hq
      rcases List.mem_cons.mp hq with rfl | hm
      · omega
      · have hint : ∀ r ∈ t, (p : ℤ) < (r : ℤ) := fun r hr => by
          exact_mod_cast hps.1 r hr
        have := ih (p : ℤ) hps.2 hint q hm
        have hlp : last < (p : ℤ) := hlt p (List.mem_cons_self _ _)
        omega
    · simp only [greedyKeep, if_neg h] at hq
      exact ih last hps.2 (fun r hr => hlt r (List.mem_cons_of_mem _ hr)) q hq

lemma greedyKeep_pairwise (md : ℕ) :
    ∀ (ps : List ℕ) (last : ℤ), ps.Pairwise (· < ·) →
      (∀ p ∈ ps, last < (p : ℤ)) →
      (greedyKeep md ps last).Pairwise (fun a b => a < b ∧ a + md ≤ b) := by
  intro ps
  induction ps with
  | nil => intro last _ _; simp [greedyKeep]
  | cons p t ih =>
    intro last hsort hlt
    have hps := List.pairwise_cons.mp hsort
    have hint : ∀ r ∈ t, (p : ℤ) < (r : ℤ) := fun r hr => by
      exact_mod_cast hps.1 r hr
    by_cases h : (md : ℤ) ≤ (p : ℤ) - last
    · simp only [greedyKeep, if_pos h]
      refine List.pairwise_cons.mpr ⟨fun q hq => ?_, ih (p : ℤ) hps.2 hint⟩
      have hqt : q ∈ t := (greedyKeep_sublist md t (p : ℤ)).subset hq
      have h1 : p < q := hps.1 q hqt
      have h2 := greedyKeep_mem_lower md t (p : ℤ) hps.2 hint q hq
      exact ⟨h1, by omega⟩
    · simp only [greedyKeep, if_neg h]
      exact ih last hps.2 (fun r hr => hlt r (List.mem_cons_of_mem _ hr))

lemma greedyKeep_maximal (md : ℕ) :
    ∀ (ps : List ℕ) (last : ℤ), ps.Pairwise (· < ·) →
      (∀ p ∈ ps, last < (p : ℤ)) →
      ∀ c ∈ ps, last + md ≤ (c : ℤ) →
        (∀ k ∈ greedyKeep md ps last, k < c → (k : ℤ) + md ≤ (c : ℤ)) →
        c ∈ greedyKeep md ps last := by
  intro ps
  induction ps with
  | nil => intro last _ _ c hc; simp at hc
  | cons p t ih =>
    intro last hsort hlt c hc hcl hk
    have hps := List.pairwise_cons.mp hsort
    have hint : ∀ r ∈ t, (p : ℤ) < (r : ℤ) := fun r hr => by
      exact_mod_cast hps.1 r hr
    rcases List.mem_cons.mp hc with rfl | hct
    · have h : (md : ℤ) ≤ (c : ℤ) - last := by omega
      simp only [greedyKeep, if_pos h]
      exact List.mem_cons_self _ _
    · by_cases h : (md : ℤ) ≤ (p : ℤ) - last
      · simp only [greedyKeep, if_pos h] at hk ⊢
        have hpc : p < c := hps.1 c hct
        have hpd : (p : ℤ) + md ≤ (c : ℤ) :=
          hk p (List.mem_cons_self _ _) hpc
        refine List.mem_cons_of_mem _ (ih (p : ℤ) hps.2 hint c hct hpd ?_)
        intro k hkm hklt
        exact hk k (List.mem_cons_of_mem _ hkm) hklt
      · simp only [greedyKeep, if_neg h] at hk ⊢
        exact ih last hps.2 (fun r hr => hlt r (List.mem_cons_of_mem _ hr)) c hct hcl hk

lemma localMaxCands_sorted (x : List ℚ) : (localMaxCands x).Pairwise (· < ·) := by
  refine List.pairwise_map.mpr ?_
  exact ((List.pairwise_lt_range _).filter _).imp (fun h => by omega)

lemma ampCands_sorted (x : List ℚ) : (ampCands x).Pairwise (· < ·) :=
  (localMaxCands_sorted x).filter _

lemma ampCands_pos (x : List ℚ) : ∀ p ∈ ampCands x, 1 ≤ p := by
  intro p hp
  have hl : p ∈ localMaxCands x := (List.mem_filter.mp hp).1
  obtain ⟨i, _, rfl⟩ := List.mem_map.mp hl
  omega

lemma detect_eq_greedy (x : List ℚ) (fs mb : ℚ) :
    detect_peaks_simple x fs mb =
      greedyKeep (⌊fs * 60 / mb⌋).toNat (ampCands x)
        (-((⌊fs * 60 / mb⌋).toNat : ℤ)) := by
  by_cases h3 : x.length < 3
  · have h0 : x.length - 2 = 0 := by omega
    have hc : localMaxCands x = [] := by simp [localMaxCands, h0]
    have ha : ampCands x = [] := by simp [ampCands, hc]
    simp [detect_peaks_simple, h3, ha, greedyKeep]
  · by_cases hc : localMaxCands x = []
    · have ha : ampCands x = [] := by simp [ampCands, hc]
      simp [detect_peaks_simple, h3, hc, ha, greedyKeep]
    · by_cases ha : ampCands x = []
      · simp [detect_peaks_simple, h3, hc, ha, greedyKeep]
      · simp [detect_peaks_simple, h3, hc, ha]

/-- C2: the peak indices returned by `detect_peaks_simple` are strictly
increasing with consecutive peaks at least
`min_dist = int(fs*60/max_bpm)` apart, and the returned set is exactly
the greedy left-to-right earliest-peak-wins selection from the
amplitude-filtered candidates: it is a sublist of them, and any candidate
far enough past every kept peak below it is itself kept. -/
theorem detect_peaks_spec (x : List ℚ) (fs mb : ℚ) :
    (detect_peaks_simple x fs mb).Pairwise
      (fun a b => a < b ∧ a + (⌊fs * 60 / mb⌋).toNat ≤ b) ∧
    (detect_peaks_simple x fs mb).Sublist (ampCands x) ∧
    (∀ c ∈ ampCands x,
      (∀ k ∈ detect_peaks_simple x fs mb, k < c → k + (⌊fs * 60 / mb⌋).toNat ≤ c) →
      c ∈ detect_peaks_simple x fs mb) := by
  have hlt : ∀ p ∈ ampCands x, -(((⌊fs * 60 / mb⌋).toNat : ℕ) : ℤ) < (p : ℤ) := by
    intro p hp
    have := ampCands_pos x p hp
    omega
  rw [detect_eq_greedy]
  refine ⟨?_, greedyKeep_sublist _ _ _, fun c hc hk => ?_⟩
  · have := greedyKeep_pairwise (⌊fs * 60 / mb⌋).toNat (ampCands x) _
      (ampCands_sorted x) hlt
    exact this.imp (fun h => ⟨h.1, by omega⟩)
  · refine greedyKeep_maximal _ (ampCands x) _ (ampCands_sorted x) hlt c hc
      (by have := ampCands_pos x c hc; omega) ?_
    intro k hkm hklt
    have := hk k hkm hklt
    omega

theorem detect_peaks_spec_witness :
    1 ∈ ampCands [0, 5, 0] ∧
    (∀ k ∈ detect_peaks_simple [0, 5, 0] 100 180, k < 1 →
      k + (⌊(100 : ℚ) * 60 / 180⌋).toNat ≤ 1) ∧
    1 ∈ detect_peaks_simple [0, 5, 0] 100 180 := by
  have hamp : ampCands [0, 5, 0] = [1] := by
    norm_num [ampCands, localMaxCands, meanQ, popVar, List.filter]
  have hsub : (detect_peaks_simple [0, 5, 0] 100 180).Sublist [1] := by
    have := (detect_peaks_spec [0, 5, 0] 100 180).2.1
    rwa [hamp] at this
  have hprem : ∀ k ∈ detect_peaks_simple [0, 5, 0] 100 180, k < 1 →
      k + (⌊(100 : ℚ) * 60 / 180⌋).toNat ≤ 1 := by
    intro k hkm hklt
    have : k ∈ [1] := hsub.subset hkm
    simp at this
    omega
  exact ⟨by rw [hamp]; exact List.mem_cons_self _ _, hprem,
    (detect_peaks_spec [0, 5, 0] 100 180).2.2 1 (by rw [hamp]; exact List.mem_cons_self _ _)
      hprem⟩

/-- C10: a local-maximum candidate whose sample value equals the
amplitude threshold `mean + 0.5*std` exactly (rationally encoded:
`x[p] - mean >= 0` and `4*(x[p]-mean)^2 = popVar`) is discarded by
`detect_peaks_simple` - the amplitude test keeps only candidates strictly
above the threshold. -/
theorem amp_threshold_strict (x : List ℚ) (fs mb : ℚ) (p : ℕ)
    (hc : p ∈ localMaxCands x) (hd : 0 ≤ x.getD p 0 - meanQ x)
    (he : 4 * (x.getD p 0 - meanQ x) ^ 2 = popVar x) :
    p ∉ detect_peaks_simple x fs mb := by
  intro hmem
  rw [detect_eq_greedy] at hmem
  have hamp : p ∈ ampCands x := (greedyKeep_sublist _ _ _).subset hmem
  have hpred := (List.mem_filter.mp hamp).2
  rw [decide_eq_true_iff] at hpred
  have hcontra := hpred.2
  rw [he] at hcontra
  exact lt_irrefl _ hcontra

theorem amp_threshold_strict_witness :
    1 ∈ localMaxCands [0, 2, 0, 6, 0, 0, 0, 0] ∧
    0 ≤ ([0, 2, 0, 6, 0, 0, 0, 0] : List ℚ).getD 1 0 - meanQ [0, 2, 0, 6, 0, 0, 0, 0] ∧
    4 * (([0, 2, 0, 6, 0, 0, 0, 0] : List ℚ).getD 1 0 - meanQ [0, 2, 0, 6, 0, 0, 0, 0]) ^ 2 =
      popVar [0, 2, 0, 6, 0, 0, 0, 0] ∧
    1 ∉ detect_peaks_simple [0, 2, 0, 6, 0, 0, 0, 0] 100 180 := by
  have hm : meanQ [(0 : ℚ), 2, 0, 6, 0, 0, 0, 0] = 1 := by norm_num [meanQ]
  have hv : popVar [(0 : ℚ), 2, 0, 6, 0, 0, 0, 0] = 4 := by norm_num [popVar, meanQ]
  have hc : 1 ∈ localMaxCands [(0 : ℚ), 2, 0, 6, 0, 0, 0, 0] := by
    norm_num [localMaxCands, List.filter]
  have hd : (0 : ℚ) ≤ ([0, 2, 0, 6, 0, 0, 0, 0] : List ℚ).getD 1 0 -
      meanQ [0, 2, 0, 6, 0, 0, 0, 0] := by
    rw [hm]; norm_num
  have he : 4 * (([0, 2, 0, 6, 0, 0, 0, 0] : List ℚ).getD 1 0 -
      meanQ [0, 2, 0, 6, 0, 0, 0, 0]) ^ 2 = popVar [0, 2, 0, 6, 0, 0, 0, 0] := by
    rw [hm, hv]; norm_num
  exact ⟨hc, hd, he, amp_threshold_strict [0, 2, 0, 6, 0, 0, 0, 0] 100 180 1 hc hd he⟩

lemma fitAux_reachable (sigexp : ℚ → ℚ) (x : List (List ℚ)) (y : List ℚ)
    (l2 tol : ℚ) : ∀ (n : ℕ) (s : List ℚ × ℚ), ∃ k ≤ n,
      fitAux sigexp x y l2 tol n s = (stepOnce sigexp x y l2)^[k] s := by
  intro n
  induction n with
  | zero => intro s; exact ⟨0, le_refl _, rfl⟩
  | succ n ih =>
    intro s
    rcases hns : newtonStep sigexp x y l2 s with _ | r
    · exact ⟨0, Nat.zero_le _, by simp [fitAux, hns]⟩
    · have hstep : stepOnce sigexp x y l2 s = r.2.2 := by simp [stepOnce, hns]
      by_cases hcond : sumSq r.1 < tol ^ 2 ∧ |r.2.1| < tol
      · refine ⟨1, by omega, ?_⟩
        simp [fitAux, hns, hcond, hstep]
      · obtain ⟨k, hk, heq⟩ := ih r.2.2
        refine ⟨k + 1, by omega, ?_⟩
        rw [Function.iterate_succ_apply, hstep]
        simpa [fitAux, hns, hcond] using heq

/-- C4: the Newton-Raphson fitter always terminates with a
`(weights, bias)` pair that is the result of at most `max_iter` Newton
updates from the zero initialization; the loop returns the current state
unchanged (the best estimate so far, not an error) as soon as the Hessian
is singular, and returns the freshly updated state as soon as the step
norm and the bias gradient fall below the tolerance
(`norm(step_w) < tol` encoded as `sumSq step_w < tol^2`). -/
theorem fit_logistic_newton_spec (sigexp : ℚ → ℚ) (x : List (List ℚ))
    (y : List ℚ) (l2 tol : ℚ) (mi : ℕ) :
    (∃ k ≤ mi, fit_logistic_newton sigexp x y l2 mi tol =
      (stepOnce sigexp x y l2)^[k] (List.replicate (x.headD []).length 0, 0)) ∧
    (∀ (s : List ℚ × ℚ) (n : ℕ), newtonStep sigexp x y l2 s = none →
      fitAux sigexp x y l2 tol (n + 1) s = s) ∧
    (∀ (s : List ℚ × ℚ) (n : ℕ) (r : List ℚ × ℚ × (List ℚ × ℚ)),
      newtonStep sigexp x y l2 s = some r →
      sumSq r.1 < tol ^ 2 ∧ |r.2.1| < tol →
      fitAux sigexp x y l2 tol (n + 1) s = r.2.2) := by
  refine ⟨fitAux_reachable sigexp x y l2 tol mi _, fun s n hns => ?_,
    fun s n r hns hcond => ?_⟩
  · simp [fitAux, hns]
  · simp [fitAux, hns, hcond]

theorem fit_logistic_newton_spec_witness :
    newtonStep (fun _ => (1 : ℚ)) [[0]] [0] 0 ([0], 0) = none ∧
    fitAux (fun _ => (1 : ℚ)) [[0]] [0] 0 (1 / 1000000) 1 ([0], 0) = ([0], 0) ∧
    ∃ k ≤ 50, fit_logistic_newton (fun _ => (1 : ℚ)) [[0]] [0] 0 50 (1 / 1000000) =
      (stepOnce (fun _ => (1 : ℚ)) [[0]] [0] 0)^[k]
        (List.replicate (([[0]] : List (List ℚ)).headD []).length 0, 0) := by
  have hns : newtonStep (fun _ => (1 : ℚ)) [[0]] [0] 0 ([0], 0) = none := by
    norm_num [newtonStep, linSolve, gaussAux, pivotSplit, matVecQ, matTVecQ, matMulQ,
      matAddQ, eyeQ, dotQ, sigmoidQ, clipQ, transposeQ, consCols, List.range_succ]
  have h := fit_logistic_newton_spec (fun _ => (1 : ℚ)) [[0]] [0] 0 (1 / 1000000) 50
  exact ⟨hns, h.2.1 ([0], 0) 0 hns, h.1⟩

/-- C5 (amended): `ecg_peaks_from_signal` returns no peaks when the
signal has fewer than `int(5*fs)` samples (truncation); past that gate an
empty signal (reachable whenever `int(5*fs) = 0`) makes the smoothing
step raise (`np.convolve` on an empty array), modelled as `none`, rather
than returning peaks; otherwise - assuming only the documented length
preservation of the FFT branch - the result is the peak detector at
200 bpm applied to the rectified, bandpass-filtered signal smoothed by
the moving average of window length `max(3, int(0.05*fs))` (truncation,
not rounding; output length `max(sample count, window)` per
`np.convolve`'s same mode). -/
theorem ecg_peaks_amended (bpc : List ℚ → List ℚ) (ecg : List ℚ) (fs : ℚ) :
    ((ecg.length : ℤ) < ⌊5 * fs⌋ → ecg_peaks_from_signal bpc ecg fs = some []) ∧
    (⌊5 * fs⌋ ≤ (ecg.length : ℤ) → ecg = [] →
      ecg_peaks_from_signal bpc ecg fs = none) ∧
    (⌊5 * fs⌋ ≤ (ecg.length : ℤ) → ecg ≠ [] →
      (bpc ecg).length = ecg.length →
      ecg_peaks_from_signal bpc ecg fs =
        some (detect_peaks_simple
          (convSameAvg (max 3 (⌊(1 / 20 : ℚ) * fs⌋.toNat))
            ((bandpass_fft bpc ecg).map (fun v => |v|))) fs 200)) := by
  have hw : 1 < max 3 (⌊(1 / 20 : ℚ) * fs⌋.toNat) :=
    lt_of_lt_of_le (by norm_num) (le_max_left _ _)
  refine ⟨fun h => ?_, fun h h0 => ?_, fun h hne hbp => ?_⟩
  · simp only [ecg_peaks_from_signal, if_pos h]
  · subst h0
    have h' : ¬ (([] : List ℚ).length : ℤ) < ⌊5 * fs⌋ := not_lt.mpr h
    simp only [ecg_peaks_from_signal, if_neg h', if_pos hw, bandpass_fft,
      List.length_nil, if_pos rfl, List.map_nil, if_true]
    rw [if_neg]
    simpa using h'
  · have h' : ¬ (ecg.length : ℤ) < ⌊5 * fs⌋ := not_lt.mpr h
    have he : ¬ ecg.length = 0 := fun h0 => hne (List.length_eq_zero.mp h0)
    have hb : bandpass_fft bpc ecg = bpc ecg := by
      simp only [bandpass_fft, if_neg he]
    have hr : ¬ ((bandpass_fft bpc ecg).map (fun v => |v|)).length = 0 := by
      rw [hb, List.length_map, hbp]
      exact he
    simp only [ecg_peaks_from_signal, if_neg h', if_pos hw, if_neg hr]

theorem ecg_peaks_amended_witness :
    ((([1, 2, 3] : List ℚ).length : ℤ) < ⌊(5 : ℚ) * 10⌋ ∧
      ecg_peaks_from_signal id [1, 2, 3] 10 = some []) ∧
    (⌊(5 : ℚ) * (1 / 7)⌋ ≤ (([] : List ℚ).length : ℤ) ∧
      ecg_peaks_from_signal id ([] : List ℚ) (1 / 7) = none) ∧
    (⌊(5 : ℚ) * (1 / 2)⌋ ≤ (([1, 2, 3] : List ℚ).length : ℤ) ∧
      ([1, 2, 3] : List ℚ) ≠ [] ∧
      (id ([1, 2, 3] : List ℚ)).length = ([1, 2, 3] : List ℚ).length ∧
      ecg_peaks_from_signal id [1, 2, 3] (1 / 2) =
        some (detect_peaks_simple
          (convSameAvg (max 3 (⌊(1 / 20 : ℚ) * (1 / 2)⌋.toNat))
            ((bandpass_fft id ([1, 2, 3] : List ℚ)).map (fun v => |v|))) (1 / 2) 200)) := by
  have h1 : (([1, 2, 3] : List ℚ).length : ℤ) < ⌊(5 : ℚ) * 10⌋ := by norm_num
  have h2 : ⌊(5 : ℚ) * (1 / 7)⌋ ≤ (([] : List ℚ).length : ℤ) := by norm_num
  have h3 : ⌊(5 : ℚ) * (1 / 2)⌋ ≤ (([1, 2, 3] : List ℚ).length : ℤ) := by norm_num
  have hne : ([1, 2, 3] : List ℚ) ≠ [] := by simp
  exact ⟨⟨h1, (ecg_peaks_amended id [1, 2, 3] 10).1 h1⟩,
    ⟨h2, (ecg_peaks_amended id ([] : List ℚ) (1 / 7)).2.1 h2 rfl⟩,
    ⟨h3, hne, rfl, (ecg_peaks_amended id [1, 2, 3] (1 / 2)).2.2 h3 hne rfl⟩⟩

/-- C5 counterexample to the claim as stated, independent of the
abstracted FFT branch.  At `fs = 0.1` Hz the empty signal is shorter
than 5 seconds (`0 < 0.5` samples-worth), so the claim says the
extractor returns no peaks; but the code's actual gate is
`len < int(5*fs) = 0`, which does not fire, `bandpass_fft` returns the
empty signal unchanged through its `len(x) == 0` early return (the FFT
branch `bpc` is never invoked, so instantiating it with `id` is
immaterial), and `np.convolve(rect, ones(3)/3, "same")` then raises
`ValueError` on the empty array - the program crashes instead of
returning no peaks, while the claim-following pipeline returns `[]`.
In addition, the smoothing window the code computes and uses at
`fs = 72` is `max(3, int(3.6)) = 3`, not the claimed
`max(3, round(3.6)) = 4` (these are the window subterms of
`ecg_peaks_from_signal` and `ecgPeaksClaimC5`). -/
theorem ecg_peaks_claim_cex :
    ecg_peaks_from_signal id ([] : List ℚ) (1 / 10) = none ∧
    ((([] : List ℚ).length : ℚ) < 5 * (1 / 10)) ∧
    ecgPeaksClaimC5 id ([] : List ℚ) (1 / 10) = [] ∧
    max 3 (⌊(1 / 20 : ℚ) * 72⌋.toNat) = 3 ∧
    max 3 (round ((1 / 20 : ℚ) * 72)).toNat = 4 := by
  have hcrash : ecg_peaks_from_signal id ([] : List ℚ) (1 / 10) = none := by
    have h' : ¬ ((([] : List ℚ).length : ℤ) < ⌊5 * (1 / 10 : ℚ)⌋) := by norm_num
    have hw : 1 < max 3 (⌊(1 / 20 : ℚ) * (1 / 10)⌋.toNat) :=
      lt_of_lt_of_le (by norm_num) (le_max_left _ _)
    simp only [ecg_peaks_from_signal, if_neg h', if_pos hw, bandpass_fft,
      List.length_nil, if_pos rfl, List.map_nil, if_true]
    rw [if_neg]
    simpa using h'
  have hclaim : ecgPeaksClaimC5 id ([] : List ℚ) (1 / 10) = [] := by
    norm_num [ecgPeaksClaimC5]
  exact ⟨hcrash, by norm_num, hclaim, by norm_num,
    by rw [round_eq]; norm_num [show Int.toNat 4 = 4 from rfl]⟩
